import Mathlib

/-!
# concurrentcache: the linked queue of `queue.go`

A shallow embedding of `queue.go`.  A `*QNode` is an address (`none` is `nil`),
the memory holding the nodes is an explicit map from addresses to nodes, and
every method of `Queue` becomes a function on the state `Queue α`, which
carries the three fields of the Go struct together with that memory.
A method that can dereference `nil` returns an `Option`; `none` is the
run-time panic of the Go program.
-/

namespace ConcurrentCache

/-- A `*QNode`: `none` is `nil`, `some a` points at the node at address `a`. -/
abbrev Ptr := Option Nat

/-- The struct `QNode`.  The field `V interface{}` holds `none` for a nil
interface and `some v` otherwise. -/
structure QNode (α : Type) where
  prev : Ptr
  next : Ptr
  V : Option α

/-- The struct `Queue` with the memory it works on: `head`, `tail` and `pool`
are the fields of the Go struct (`pool` lists the nodes held by the
`sync.Pool`), `heap` maps every address to the node stored there and `brk` is
the first address that has not been allocated yet. -/
structure Queue (α : Type) where
  head : Ptr
  tail : Ptr
  pool : List Nat
  heap : Nat → QNode α
  brk : Nat

variable {α : Type}

/-- The assignment `a.prev = p`. -/
def setPrev (h : Nat → QNode α) (a : Nat) (p : Ptr) : Nat → QNode α :=
  fun b => if b = a then { h b with prev := p } else h b

/-- The assignment `a.next = p`. -/
def setNext (h : Nat → QNode α) (a : Nat) (p : Ptr) : Nat → QNode α :=
  fun b => if b = a then { h b with next := p } else h b

/-- The assignment `a.V = v`. -/
def setV (h : Nat → QNode α) (a : Nat) (v : Option α) : Nat → QNode α :=
  fun b => if b = a then { h b with V := v } else h b

/-- The constructor `NewQueue`: no head, no tail, an empty pool.  The memory the program runs
in is a parameter: `heap` with the addresses below `brk` already allocated. -/
def NewQueue (heap : Nat → QNode α) (brk : Nat) : Queue α :=
  { head := none, tail := none, pool := [], heap := heap, brk := brk }

/-- The call `q.pool.Get()`: the pool hands out one of the nodes it holds (the one at
position `pick` of `pool`, which it gives up), or, when there is no such
node, its `New` function allocates `&QNode{}` at the first free address. -/
def poolGet (q : Queue α) (pick : Nat) : Nat × Queue α :=
  match q.pool.get? pick with
  | some a => (a, { q with pool := q.pool.eraseIdx pick })
  | none =>
    (q.brk, { q with heap := fun b => if b = q.brk then ⟨none, none, none⟩ else q.heap b,
                     brk := q.brk + 1 })

/-- The method `(*QNode).reset` on a node that is not nil. -/
def reset (h : Nat → QNode α) (a : Nat) : Nat → QNode α :=
  setV (setNext (setPrev h a none) a none) a none

/-- The method `NewQNode`: take a node from the pool, reset it, store `v`. -/
def NewQNode (q : Queue α) (pick : Nat) (v : Option α) : Nat × Queue α :=
  let r := poolGet q pick
  (r.1, { r.2 with heap := setV (reset r.2.heap r.1) r.1 v })

/-- The method `Recycle`: put a node that is not nil into the pool. -/
def Recycle (q : Queue α) (n : Ptr) : Queue α :=
  match n with
  | some a => { q with pool := a :: q.pool }
  | none => q

/-- The method `Empty`: `q.head == q.tail && q.head == nil`. -/
def Empty (q : Queue α) : Bool :=
  decide (q.head = q.tail) && decide (q.head = none)

/-- The method `push`.  The result is `none` when the Go code dereferences nil. -/
def push (q : Queue α) (n : Ptr) (left : Bool) : Option (Queue α) :=
  match n with
  | none => none
  | some a =>
    if Empty q then
      some { q with heap := setPrev (setNext q.heap a none) a none, head := some a, tail := some a }
    else if left then
      match q.head with
      | none => none
      | some hd =>
        some { q with heap := setPrev (setPrev (setNext q.heap a q.head) a none) hd (some a),
                      head := some a }
    else
      match q.tail with
      | none => none
      | some tl =>
        some { q with heap := setNext (setPrev (setNext q.heap a none) a q.tail) tl (some a),
                      tail := some a }

/-- The method `LPush`. -/
def LPush (q : Queue α) (n : Ptr) : Option (Queue α) := push q n true

/-- The method `RPush`. -/
def RPush (q : Queue α) (n : Ptr) : Option (Queue α) := push q n false

/-- The method `InsertAfter`: the pair returned is `(bool, error)`, the error being its
message. -/
def InsertAfter (q : Queue α) (prev n : Ptr) : (Bool × Option String) × Queue α :=
  match prev, n with
  | some p, some a =>
    let h1 := setPrev q.heap a (some p)
    let h2 := setNext h1 a (h1 p).next
    let h3 := match (h2 p).next with
      | some x => setPrev h2 x (some a)
      | none => h2
    let h4 := setNext h3 p (some a)
    ((true, none), { q with heap := h4, tail := if some p = q.tail then some a else q.tail })
  | _, _ => ((false, some "invalid node"), q)

/-- The method `InsertBefore`. -/
def InsertBefore (q : Queue α) (next n : Ptr) : (Bool × Option String) × Queue α :=
  match next, n with
  | some p, some a =>
    let h1 := setNext q.heap a (some p)
    let h2 := setPrev h1 a (h1 p).prev
    let h3 := match (h2 p).prev with
      | some x => setNext h2 x (some a)
      | none => h2
    let h4 := setPrev h3 p (some a)
    ((true, none), { q with heap := h4, head := if some p = q.head then some a else q.head })
  | _, _ => ((false, some "invalid node"), q)

/-- The method `pop`.  The result is `none` when the Go code dereferences nil, and
`some (r, q')` when it returns `r` in the state `q'`. -/
def pop (q : Queue α) (left : Bool) : Option (Ptr × Queue α) :=
  if Empty q then some (none, q)
  else if left then
    match q.head with
    | none => none
    | some a =>
      let q1 : Queue α :=
        if q.head = q.tail then { q with head := none, tail := none }
        else { q with head := (q.heap a).next }
      some (some a, { q1 with heap := setPrev (setNext q1.heap a none) a none })
  else
    match q.tail with
    | none =>
      -- `q.head != q.tail`, so `q.tail = q.tail.prev` is reached with a nil tail
      none
    | some a =>
      let q1 : Queue α :=
        if q.head = q.tail then { q with head := none, tail := none }
        else { q with tail := (q.heap a).prev }
      some (some a, { q1 with heap := setPrev (setNext q1.heap a none) a none })

/-- The method `LPop`. -/
def LPop (q : Queue α) : Option (Ptr × Queue α) := pop q true

/-- The method `RPop`. -/
def RPop (q : Queue α) : Option (Ptr × Queue α) := pop q false

/-- The method `Delete`. -/
def Delete (q : Queue α) (n : Ptr) : (Bool × Option String) × Queue α :=
  match n with
  | none => ((false, some "invalid node"), q)
  | some a =>
    let s1 : (Nat → QNode α) × Ptr :=
      match (q.heap a).prev with
      | some x => (setNext q.heap x (q.heap a).next, q.head)
      | none => (q.heap, if some a = q.head then (q.heap a).next else q.head)
    let s2 : (Nat → QNode α) × Ptr :=
      match (s1.1 a).next with
      | some y => (setPrev s1.1 y (s1.1 a).prev, q.tail)
      | none => (s1.1, if some a = q.tail then (s1.1 a).prev else q.tail)
    ((true, none),
      { q with heap := setNext (setPrev s2.1 a none) a none, head := s1.2, tail := s2.2 })

/-! ## Test drivers, well-formedness and call sequences -/

/-- Reading `r.V` of a node returned by a pop (`none` for a nil result). -/
def readV (q : Queue α) (r : Ptr) : Option α :=
  match r with
  | some a => (q.heap a).V
  | none => none

/-- The driver `q.RPush(q.NewQNode(v))` for each call `(pick, v)` in order,
where `pick` is the choice the pool makes in that `NewQNode`.  It returns the
nodes pushed, in order. -/
def rpushAll (q : Queue α) : List (Nat × Option α) → Option (List Nat × Queue α)
  | [] => some ([], q)
  | c :: rest =>
    let r := NewQNode q c.1 c.2
    match RPush r.2 (some r.1) with
    | none => none
    | some q1 =>
      match rpushAll q1 rest with
      | none => none
      | some (ns, q2) => some (r.1 :: ns, q2)

/-- The driver `q.LPush(q.NewQNode(v))` for each call `(pick, v)` in order,
where `pick` is the choice the pool makes in that `NewQNode`.  It returns the
nodes pushed, in the order pushed. -/
def lpushAll (q : Queue α) : List (Nat × Option α) → Option (List Nat × Queue α)
  | [] => some ([], q)
  | c :: rest =>
    let r := NewQNode q c.1 c.2
    match LPush r.2 (some r.1) with
    | none => none
    | some q1 =>
      match lpushAll q1 rest with
      | none => none
      | some (ns, q2) => some (r.1 :: ns, q2)

/-- The driver that calls `LPop` `k` times and records each node returned with
the `V` read from it at that moment. -/
def lpopN : Nat → Queue α → Option (List (Ptr × Option α) × Queue α)
  | 0, q => some ([], q)
  | k + 1, q =>
    match LPop q with
    | none => none
    | some (r, q1) =>
      match lpopN k q1 with
      | none => none
      | some (rs, q2) => some ((r, readV q1 r) :: rs, q2)

/-- The head of `l`, or `d` for the empty list. -/
def headOr (l : List Nat) (d : Ptr) : Ptr :=
  match l with
  | [] => d
  | a :: _ => some a

/-- The last element of `l`, or `d` for the empty list. -/
def lastOr : List Nat → Ptr → Ptr
  | [], d => d
  | a :: r, _ => lastOr r (some a)

/-- The nodes of `l` form a doubly linked segment in `h`: the first one has
`prev = p`, the last one has `next = nx`, and neighbours point at each other. -/
def seg (h : Nat → QNode α) : Ptr → List Nat → Ptr → Prop
  | _, [], _ => True
  | p, a :: r, nx => (h a).prev = p ∧ (h a).next = headOr r nx ∧ seg h (some a) r nx

/-- The forward half of `seg`: only the `next` links. -/
def fwd (h : Nat → QNode α) : List Nat → Prop
  | [] => True
  | a :: r => (h a).next = headOr r none ∧ fwd h r

/-- A well-formed queue with members `ms` (in order): the members are
distinct, `head` is the first and `tail` the last, each member's `next` is the
following member and `prev` the preceding one, the first has no `prev` and the
last no `next`. -/
def WellFormed (q : Queue α) (ms : List Nat) : Prop :=
  ms.Nodup ∧ q.head = ms.head? ∧ q.tail = ms.getLast? ∧ seg q.heap none ms none

/-- The forward half of well-formedness, which is all a run of `LPop` relies
on: distinct members, `head` the first, `tail` the last, and the `next` links
leading from each member to the following one. -/
def Forward (q : Queue α) (ms : List Nat) : Prop :=
  ms.Nodup ∧ q.head = ms.head? ∧ q.tail = ms.getLast? ∧ fwd q.heap ms

instance segDecidable (h : Nat → QNode α) : (p : Ptr) → (l : List Nat) → (nx : Ptr) →
    Decidable (seg h p l nx)
  | _, [], _ => isTrue trivial
  | p, a :: r, nx =>
    have := segDecidable h (some a) r nx
    inferInstanceAs (Decidable ((h a).prev = p ∧ (h a).next = headOr r nx ∧ seg h (some a) r nx))

instance wellFormedDecidable (q : Queue α) (ms : List Nat) : Decidable (WellFormed q ms) :=
  inferInstanceAs (Decidable (ms.Nodup ∧ q.head = ms.head? ∧ q.tail = ms.getLast? ∧
    seg q.heap none ms none))

/-- Following `next` from `p` for at most `fuel` steps. -/
def walkNext (h : Nat → QNode α) : Nat → Ptr → List Nat
  | 0, _ => []
  | _ + 1, none => []
  | k + 1, some a => a :: walkNext h k (h a).next

/-- Following `prev` from `p` for at most `fuel` steps. -/
def walkPrev (h : Nat → QNode α) : Nat → Ptr → List Nat
  | 0, _ => []
  | _ + 1, none => []
  | k + 1, some a => a :: walkPrev h k (h a).prev

/-- One call of a public method of `Queue`. -/
inductive Call (α : Type) where
  | NewQNode (pick : Nat) (v : Option α)
  | Recycle (n : Ptr)
  | LPush (n : Ptr)
  | RPush (n : Ptr)
  | InsertAfter (p n : Ptr)
  | InsertBefore (p n : Ptr)
  | LPop
  | RPop
  | Delete (n : Ptr)

/-- The node `n` may be handed to a push or an insert: it is not nil, it has
been allocated, it is not a member of the queue, and the pool does not hold it. -/
def unlinked (q : Queue α) (ms : List Nat) (n : Ptr) : Bool :=
  match n with
  | some a => decide (a < q.brk) && !decide (a ∈ ms) && !decide (a ∈ q.pool)
  | none => false

/-- The node `n` is a member of the queue. -/
def isMember (ms : List Nat) (n : Ptr) : Bool :=
  match n with
  | some a => decide (a ∈ ms)
  | none => false

/-- The caller contracts: a pushed or inserted node is unlinked, a pivot or a
deleted node is a member, and only a node that is not a member is recycled. -/
def respects (q : Queue α) (ms : List Nat) : Call α → Bool
  | .NewQNode _ _ => true
  | .Recycle n => n = none || unlinked q ms n
  | .LPush n => unlinked q ms n
  | .RPush n => unlinked q ms n
  | .InsertAfter p n => isMember ms p && unlinked q ms n
  | .InsertBefore p n => isMember ms p && unlinked q ms n
  | .LPop => true
  | .RPop => true
  | .Delete n => isMember ms n

/-- The members after `n` joined. -/
def join (ms : List Nat) (n : Ptr) : List Nat :=
  match n with
  | some a => a :: ms
  | none => ms

/-- The members after `n` left. -/
def leave (ms : List Nat) (n : Ptr) : List Nat :=
  match n with
  | some a => ms.filter (fun b => b ≠ a)
  | none => ms

/-- One call on the queue `q` whose current members are `ms`.  The result is
`none` when the call breaks its contract or the code dereferences nil. -/
def step (q : Queue α) (ms : List Nat) (c : Call α) : Option (Queue α × List Nat) :=
  if respects q ms c then
    match c with
    | .NewQNode pick v => some ((NewQNode q pick v).2, ms)
    | .Recycle n => some (Recycle q n, ms)
    | .LPush n => (LPush q n).map fun q1 => (q1, join ms n)
    | .RPush n => (RPush q n).map fun q1 => (q1, join ms n)
    | .InsertAfter p n => some ((InsertAfter q p n).2, join ms n)
    | .InsertBefore p n => some ((InsertBefore q p n).2, join ms n)
    | .LPop => (LPop q).map fun r => (r.2, leave ms r.1)
    | .RPop => (RPop q).map fun r => (r.2, leave ms r.1)
    | .Delete n => some ((Delete q n).2, leave ms n)
  else none

/-- A sequence of calls, from the queue `q` with members `ms`. -/
def run (q : Queue α) (ms : List Nat) : List (Call α) → Option (Queue α × List Nat)
  | [] => some (q, ms)
  | c :: cs =>
    match step q ms c with
    | none => none
    | some s => run s.1 s.2 cs

/-- A memory in which every node is zero. -/
def zeroHeap : Nat → QNode Nat := fun _ => ⟨none, none, none⟩

/-- The well-formed queue `0 ⇄ 1 ⇄ 2` holding the values 10, 11 and 12. -/
def chain3 : Queue Nat :=
  { head := some 0
    tail := some 2
    pool := []
    heap := fun b =>
      if b = 0 then ⟨none, some 1, some 10⟩
      else if b = 1 then ⟨some 0, some 2, some 11⟩
      else if b = 2 then ⟨some 1, none, some 12⟩
      else ⟨none, none, none⟩
    brk := 4 }

/-- Two nodes are made with `NewQNode` (at the addresses 0 and 1) and pushed
on the right. -/
def pushTwo : List (Call Nat) :=
  [.NewQNode 0 (some 10), .NewQNode 0 (some 11), .RPush (some 0), .RPush (some 1)]

/-- Three nodes are made with `NewQNode` (at the addresses 0, 1 and 2) and
pushed on the right. -/
def pushThree : List (Call Nat) :=
  [.NewQNode 0 (some 10), .NewQNode 0 (some 11), .NewQNode 0 (some 12),
   .RPush (some 0), .RPush (some 1), .RPush (some 2)]

/-- After `pushThree`: pop the head, delete the new head, pop again. -/
def popDeletePop : List (Call Nat) :=
  pushThree ++ [.LPop, .Delete (some 1), .LPop]

/-! ## Memory updates -/

section Lemmas
variable {α : Type}

@[simp] theorem setPrev_prev (h : Nat → QNode α) (a b : Nat) (p : Ptr) :
    (setPrev h a p b).prev = if b = a then p else (h b).prev := by
  unfold setPrev; split <;> rfl

@[simp] theorem setPrev_next (h : Nat → QNode α) (a b : Nat) (p : Ptr) :
    (setPrev h a p b).next = (h b).next := by
  unfold setPrev; split <;> rfl

@[simp] theorem setPrev_V (h : Nat → QNode α) (a b : Nat) (p : Ptr) :
    (setPrev h a p b).V = (h b).V := by
  unfold setPrev; split <;> rfl

@[simp] theorem setNext_next (h : Nat → QNode α) (a b : Nat) (p : Ptr) :
    (setNext h a p b).next = if b = a then p else (h b).next := by
  unfold setNext; split <;> rfl

@[simp] theorem setNext_prev (h : Nat → QNode α) (a b : Nat) (p : Ptr) :
    (setNext h a p b).prev = (h b).prev := by
  unfold setNext; split <;> rfl

@[simp] theorem setNext_V (h : Nat → QNode α) (a b : Nat) (p : Ptr) :
    (setNext h a p b).V = (h b).V := by
  unfold setNext; split <;> rfl

@[simp] theorem setV_V (h : Nat → QNode α) (a b : Nat) (v : Option α) :
    (setV h a v b).V = if b = a then v else (h b).V := by
  unfold setV; split <;> rfl

@[simp] theorem setV_prev (h : Nat → QNode α) (a b : Nat) (v : Option α) :
    (setV h a v b).prev = (h b).prev := by
  unfold setV; split <;> rfl

@[simp] theorem setV_next (h : Nat → QNode α) (a b : Nat) (v : Option α) :
    (setV h a v b).next = (h b).next := by
  unfold setV; split <;> rfl

/-! ## Segments -/

@[simp] theorem headOr_nil (d : Ptr) : headOr [] d = d := rfl

@[simp] theorem headOr_cons (a : Nat) (r : List Nat) (d : Ptr) : headOr (a :: r) d = some a := rfl

@[simp] theorem lastOr_nil (d : Ptr) : lastOr [] d = d := rfl

@[simp] theorem lastOr_cons (a : Nat) (r : List Nat) (d : Ptr) :
    lastOr (a :: r) d = lastOr r (some a) := rfl

theorem headOr_none (l : List Nat) : headOr l none = l.head? := by
  cases l <;> rfl

theorem lastOr_append_singleton (l : List Nat) (a : Nat) (d : Ptr) :
    lastOr (l ++ [a]) d = some a := by
  induction l generalizing d with
  | nil => rfl
  | cons b r ih => simpa using ih (some b)

theorem eq_nil_or_snoc (l : List Nat) : l = [] ∨ ∃ r a, l = r ++ [a] := by
  rcases List.eq_nil_or_concat l with h | ⟨r, a, h⟩
  · exact Or.inl h
  · exact Or.inr ⟨r, a, by rw [h, List.concat_eq_append]⟩

theorem lastOr_none (l : List Nat) : lastOr l none = l.getLast? := by
  rcases eq_nil_or_snoc l with rfl | ⟨r, a, rfl⟩
  · rfl
  · rw [List.getLast?_append, lastOr_append_singleton]
    rfl

theorem lastOr_of_ne_nil {l : List Nat} (hl : l ≠ []) (d e : Ptr) : lastOr l d = lastOr l e := by
  rcases eq_nil_or_snoc l with rfl | ⟨r, a, rfl⟩
  · exact absurd rfl hl
  · rw [lastOr_append_singleton, lastOr_append_singleton]

theorem headOr_append (xs ys : List Nat) (d : Ptr) :
    headOr (xs ++ ys) d = headOr xs (headOr ys d) := by
  cases xs <;> rfl

theorem lastOr_append (xs ys : List Nat) (d : Ptr) :
    lastOr (xs ++ ys) d = lastOr ys (lastOr xs d) := by
  induction xs generalizing d with
  | nil => rfl
  | cons a r ih => simpa using ih (some a)

theorem lastOr_mem {l : List Nat} {a : Nat} (hl : l ≠ []) {d : Ptr} (h : lastOr l d = some a) :
    a ∈ l := by
  rcases eq_nil_or_snoc l with rfl | ⟨r, b, rfl⟩
  · exact absurd rfl hl
  · rw [lastOr_append_singleton] at h
    cases h
    simp

theorem seg_append (h : Nat → QNode α) (p nx : Ptr) (xs ys : List Nat) :
    seg h p (xs ++ ys) nx ↔ seg h p xs (headOr ys nx) ∧ seg h (lastOr xs p) ys nx := by
  induction xs generalizing p with
  | nil => simp [seg]
  | cons a r ih =>
    rw [List.cons_append]
    simp only [seg, lastOr_cons, ih (some a), headOr_append]
    tauto

/-- A segment stays a segment when the memory changes only in the `prev` of
its first node and the `next` of its last node. -/
theorem seg_update {h h' : Nat → QNode α} {p nx p' nx' : Ptr} {l : List Nat}
    (hs : seg h p l nx) (hnd : l.Nodup)
    (hprev : ∀ a ∈ l, some a ≠ l.head? → (h' a).prev = (h a).prev)
    (hfirst : ∀ a, l.head? = some a → (h' a).prev = p')
    (hnext : ∀ a ∈ l, some a ≠ lastOr l none → (h' a).next = (h a).next)
    (hlast : ∀ a, lastOr l none = some a → (h' a).next = nx') :
    seg h' p' l nx' := by
  induction l generalizing p p' with
  | nil => trivial
  | cons a r ih =>
    obtain ⟨h1, h2, h3⟩ := hs
    have hnd' := List.nodup_cons.mp hnd
    refine ⟨hfirst a rfl, ?_, ?_⟩
    · cases r with
      | nil => simpa using hlast a rfl
      | cons b t =>
        have hne : some a ≠ lastOr (a :: b :: t) none := by
          intro he
          have hm : a ∈ b :: t := by
            apply lastOr_mem (List.cons_ne_nil b t) (d := some a)
            simpa using he.symm
          exact hnd'.1 hm
        rw [hnext a (List.mem_cons_self _ _) hne, h2]
        rfl
    · apply ih h3 hnd'.2
      · intro b hb hne
        apply hprev b (List.mem_cons_of_mem _ hb)
        intro he
        simp only [List.head?_cons, Option.some.injEq] at he
        exact hnd'.1 (he ▸ hb)
      · intro b hb
        have hbr : b ∈ r := List.mem_of_mem_head? hb
        have hba : b ≠ a := fun he => hnd'.1 (he ▸ hbr)
        rw [hprev b (List.mem_cons_of_mem _ hbr) (by simpa using hba)]
        cases r with
        | nil => simp at hb
        | cons c t =>
          simp only [List.head?_cons, Option.some.injEq] at hb
          subst hb
          exact h3.1
      · intro b hb hne
        apply hnext b (List.mem_cons_of_mem _ hb)
        cases r with
        | nil => simp at hb
        | cons c t =>
          rw [lastOr_cons, lastOr_of_ne_nil (List.cons_ne_nil c t) (some a) none]
          exact hne
      · intro b hb
        apply hlast
        cases r with
        | nil => simp at hb
        | cons c t =>
          rw [lastOr_cons, lastOr_of_ne_nil (List.cons_ne_nil c t) (some a) none]
          exact hb

/-- A segment only depends on the links of its own nodes. -/
theorem seg_congr {h h' : Nat → QNode α} {p nx : Ptr} {l : List Nat}
    (hs : seg h p l nx)
    (hprev : ∀ a ∈ l, (h' a).prev = (h a).prev)
    (hnext : ∀ a ∈ l, (h' a).next = (h a).next) :
    seg h' p l nx := by
  induction l generalizing p with
  | nil => trivial
  | cons a r ih =>
    obtain ⟨h1, h2, h3⟩ := hs
    refine ⟨by rw [hprev a (List.mem_cons_self _ _), h1],
      by rw [hnext a (List.mem_cons_self _ _), h2], ?_⟩
    exact ih h3 (fun b hb => hprev b (List.mem_cons_of_mem _ hb))
      (fun b hb => hnext b (List.mem_cons_of_mem _ hb))

theorem headOr_mem {l : List Nat} {a : Nat} (h : headOr l none = some a) : a ∈ l := by
  cases l with
  | nil => cases h
  | cons b t =>
    simp only [headOr_cons, Option.some.injEq] at h
    exact h ▸ List.mem_cons_self _ _

theorem lastOr_none_mem {l : List Nat} {a : Nat} (h : lastOr l none = some a) : a ∈ l :=
  lastOr_mem (by rintro rfl; cases h) h

/-- A segment whose nodes keep their `prev` and whose last node gets the
`next` link `nx'`. -/
theorem seg_left {h h' : Nat → QNode α} {p nx nx' : Ptr} {l : List Nat}
    (hs : seg h p l nx) (hnd : l.Nodup)
    (hprev : ∀ a ∈ l, (h' a).prev = (h a).prev)
    (hnext : ∀ a ∈ l, (h' a).next = if some a = lastOr l none then nx' else (h a).next) :
    seg h' p l nx' := by
  apply seg_update hs hnd
  · intro a ha _
    exact hprev a ha
  · intro a ha
    rw [hprev a (List.mem_of_mem_head? ha)]
    cases l with
    | nil => cases ha
    | cons c t =>
      simp only [List.head?_cons, Option.some.injEq] at ha
      exact ha ▸ hs.1
  · intro a ha hne
    rw [hnext a ha, if_neg hne]
  · intro a ha
    rw [hnext a (lastOr_none_mem ha), if_pos ha.symm]

/-- A segment whose nodes keep their `next` and whose first node gets the
`prev` link `p'`. -/
theorem seg_right {h h' : Nat → QNode α} {p p' nx : Ptr} {l : List Nat}
    (hs : seg h p l nx) (hnd : l.Nodup)
    (hprev : ∀ a ∈ l, (h' a).prev = if some a = headOr l none then p' else (h a).prev)
    (hnext : ∀ a ∈ l, (h' a).next = (h a).next) :
    seg h' p' l nx := by
  cases l with
  | nil => trivial
  | cons c t =>
    obtain ⟨_, h2, h3⟩ := hs
    have hnd' := List.nodup_cons.mp hnd
    refine ⟨?_, ?_, ?_⟩
    · rw [hprev c (List.mem_cons_self _ _), headOr_cons, if_pos rfl]
    · rw [hnext c (List.mem_cons_self _ _), h2]
    · apply seg_congr h3
      · intro b hb
        have hbc : some b ≠ headOr (c :: t) none := by
          simp only [headOr_cons, ne_eq, Option.some.injEq]
          intro he
          exact hnd'.1 (he ▸ hb)
        rw [hprev b (List.mem_cons_of_mem _ hb), if_neg hbc]
      · intro b hb
        exact hnext b (List.mem_cons_of_mem _ hb)

/-- The parts of a well-formed queue around one of its members. -/
theorem wf_split {q : Queue α} {xs ys : List Nat} {n : Nat} (hwf : WellFormed q (xs ++ n :: ys)) :
    (xs.Nodup ∧ ys.Nodup ∧ n ∉ xs ∧ n ∉ ys ∧ ∀ a ∈ xs, a ∉ ys) ∧
    q.head = headOr xs (some n) ∧ q.tail = lastOr ys (some n) ∧
    seg q.heap none xs (some n) ∧ (q.heap n).prev = lastOr xs none ∧
    (q.heap n).next = headOr ys none ∧ seg q.heap (some n) ys none := by
  obtain ⟨hnd, hhead, htail, hseg⟩ := hwf
  rw [seg_append] at hseg
  obtain ⟨hxs, hnprev, hnnext, hys⟩ := hseg
  refine ⟨?_, ?_, ?_, hxs, hnprev, hnnext, hys⟩
  · rw [List.nodup_append] at hnd
    obtain ⟨h1, h2, h3⟩ := hnd
    rw [List.nodup_cons] at h2
    refine ⟨h1, h2.2, ?_, h2.1, ?_⟩
    · intro hm; exact h3 hm (List.mem_cons_self _ _)
    · intro a ha hm; exact h3 ha (List.mem_cons_of_mem _ hm)
  · rw [hhead, ← headOr_none, headOr_append]; rfl
  · rw [htail, ← lastOr_none, lastOr_append]; rfl

/-! ## Delete -/

/-- What `Delete` of a member does to `head`, `tail` and every link. -/
theorem Delete_links (q : Queue α) (xs ys : List Nat) (n : Nat)
    (hwf : WellFormed q (xs ++ n :: ys)) :
    (Delete q (some n)).1 = (true, none) ∧
    (Delete q (some n)).2.head = headOr xs (headOr ys none) ∧
    (Delete q (some n)).2.tail = lastOr ys (lastOr xs none) ∧
    (∀ b, ((Delete q (some n)).2.heap b).prev =
      if b = n then none else if some b = headOr ys none then lastOr xs none
      else (q.heap b).prev) ∧
    (∀ b, ((Delete q (some n)).2.heap b).next =
      if b = n then none else if some b = lastOr xs none then headOr ys none
      else (q.heap b).next) := by
  obtain ⟨-, hhead, htail, -, hnprev, hnnext, -⟩ := wf_split hwf
  rcases eq_nil_or_snoc xs with rfl | ⟨xi, x, rfl⟩ <;> rcases ys with _ | ⟨y, t⟩
  · simp [Delete, hnprev, hnnext, hhead, htail]
  · simp [Delete, hnprev, hnnext, hhead, htail]
  · simp [Delete, hnprev, hnnext, hhead, htail, lastOr_append_singleton, headOr_append]
  · simp [Delete, hnprev, hnnext, hhead, htail, lastOr_append_singleton, headOr_append]

theorem nodup_delete {xs ys : List Nat} {n : Nat} (h : (xs ++ n :: ys).Nodup) :
    (xs ++ ys).Nodup :=
  h.sublist (List.Sublist.append_left (List.sublist_cons_self n ys) xs)

theorem Delete_wf (q : Queue α) (xs ys : List Nat) (n : Nat)
    (hwf : WellFormed q (xs ++ n :: ys)) :
    WellFormed (Delete q (some n)).2 (xs ++ ys) := by
  obtain ⟨_, hhd, htl, hprev, hnext⟩ := Delete_links q xs ys n hwf
  obtain ⟨⟨hndx, hndy, hnx, hny, hdisj⟩, -, -, hxs, -, -, hys⟩ := wf_split hwf
  refine ⟨nodup_delete hwf.1, ?_, ?_, ?_⟩
  · rw [hhd, ← headOr_none, headOr_append]
  · rw [htl, ← lastOr_none, lastOr_append]
  · rw [seg_append]
    constructor
    · apply seg_left hxs hndx
      · intro a ha
        have h1 : a ≠ n := fun he => hnx (he ▸ ha)
        have h2 : some a ≠ headOr ys none := fun he => hdisj a ha (headOr_mem he.symm)
        rw [hprev, if_neg h1, if_neg h2]
      · intro a ha
        have h1 : a ≠ n := fun he => hnx (he ▸ ha)
        rw [hnext, if_neg h1]
    · apply seg_right hys hndy
      · intro a ha
        have h1 : a ≠ n := fun he => hny (he ▸ ha)
        rw [hprev, if_neg h1]
      · intro a ha
        have h1 : a ≠ n := fun he => hny (he ▸ ha)
        have h2 : some a ≠ lastOr xs none :=
          fun he => hdisj a (lastOr_none_mem he.symm) ha
        rw [hnext, if_neg h1, if_neg h2]

/-! ## InsertAfter and InsertBefore -/

/-- What `InsertAfter` does to `head`, `tail` and every link. -/
theorem InsertAfter_links (q : Queue α) (xs ys : List Nat) (p n : Nat)
    (hwf : WellFormed q (xs ++ p :: ys)) (hn : n ∉ xs ++ p :: ys) :
    (InsertAfter q (some p) (some n)).1 = (true, none) ∧
    (InsertAfter q (some p) (some n)).2.head = q.head ∧
    (InsertAfter q (some p) (some n)).2.tail = lastOr ys (some n) ∧
    (∀ b, ((InsertAfter q (some p) (some n)).2.heap b).prev =
      if b = n then some p else if some b = headOr ys none then some n
      else (q.heap b).prev) ∧
    (∀ b, ((InsertAfter q (some p) (some n)).2.heap b).next =
      if b = p then some n else if b = n then headOr ys none
      else (q.heap b).next) := by
  obtain ⟨⟨-, -, -, hpys, -⟩, hhead, htail, -, hnprev, hnnext, -⟩ := wf_split hwf
  have hnp : n ≠ p := by
    intro he; apply hn; simp [he]
  rcases ys with _ | ⟨y, t⟩
  · simp [InsertAfter, hnprev, hnnext, hhead, htail, hnp]
  · have hny : y ≠ n := by
      intro he; apply hn; simp [he]
    have hpy : p ≠ y := fun he => hpys (he ▸ List.mem_cons_self _ _)
    have hpt : some p ≠ lastOr t (some y) := by
      intro he
      apply hpys
      apply lastOr_mem (List.cons_ne_nil y t) (d := none)
      rw [lastOr_cons]
      exact he.symm
    simp [InsertAfter, hnprev, hnnext, hhead, htail, hnp, hny, hpy, hpt]
    intro b
    by_cases h1 : b = y
    · simp [h1, hny]
    · simp [h1]

theorem nodup_insert {xs ys : List Nat} {p n : Nat} (h : (xs ++ p :: ys).Nodup)
    (hn : n ∉ xs ++ p :: ys) : (xs ++ p :: n :: ys).Nodup := by
  have h1 : (n :: (xs ++ p :: ys)).Nodup := List.nodup_cons.mpr ⟨hn, h⟩
  have h2 : (xs ++ p :: n :: ys).Perm (n :: (xs ++ p :: ys)) := by
    have h3 : (p :: n :: ys).Perm (n :: p :: ys) := List.Perm.swap n p ys
    exact ((List.Perm.append_left xs h3).trans List.perm_middle)
  exact h2.nodup_iff.mpr h1

theorem InsertAfter_wf (q : Queue α) (xs ys : List Nat) (p n : Nat)
    (hwf : WellFormed q (xs ++ p :: ys)) (hn : n ∉ xs ++ p :: ys) :
    WellFormed (InsertAfter q (some p) (some n)).2 (xs ++ p :: n :: ys) := by
  obtain ⟨_, hhd, htl, hprev, hnext⟩ := InsertAfter_links q xs ys p n hwf hn
  obtain ⟨⟨hndx, hndy, hpx, hpy, hdisj⟩, hhead, htail, hxs, hpprev, hpnext, hys⟩ := wf_split hwf
  have hnp : n ≠ p := by
    intro he; apply hn; simp [he]
  have hnx : n ∉ xs := fun hm => hn (List.mem_append_left _ hm)
  have hny : n ∉ ys := fun hm => hn (List.mem_append_right _ (List.mem_cons_of_mem _ hm))
  refine ⟨nodup_insert hwf.1 hn, ?_, ?_, ?_⟩
  · rw [hhd, hhead, ← headOr_none, headOr_append]; rfl
  · rw [htl, ← lastOr_none, lastOr_append]; rfl
  · rw [seg_append]
    refine ⟨?_, ?_, ?_, ?_, ?_, ?_⟩
    · apply seg_congr hxs
      · intro a ha
        have h1 : a ≠ n := fun he => hnx (he ▸ ha)
        have h2 : some a ≠ headOr ys none := fun he => hdisj a ha (headOr_mem he.symm)
        rw [hprev, if_neg h1, if_neg h2]
      · intro a ha
        have h1 : a ≠ n := fun he => hnx (he ▸ ha)
        have h2 : a ≠ p := fun he => hpx (he ▸ ha)
        rw [hnext, if_neg h2, if_neg h1]
    · have h2 : some p ≠ headOr ys none := fun he => hpy (headOr_mem he.symm)
      rw [hprev, if_neg hnp.symm, if_neg h2, hpprev]
    · rw [hnext, if_pos rfl]; rfl
    · rw [hprev, if_pos rfl]
    · rw [hnext, if_neg hnp, if_pos rfl]
    · apply seg_right hys hndy
      · intro a ha
        have h1 : a ≠ n := fun he => hny (he ▸ ha)
        rw [hprev, if_neg h1]
      · intro a ha
        have h1 : a ≠ n := fun he => hny (he ▸ ha)
        have h2 : a ≠ p := fun he => hpy (he ▸ ha)
        rw [hnext, if_neg h2, if_neg h1]

/-- What `InsertBefore` does to `head`, `tail` and every link. -/
theorem InsertBefore_links (q : Queue α) (xs ys : List Nat) (p n : Nat)
    (hwf : WellFormed q (xs ++ p :: ys)) (hn : n ∉ xs ++ p :: ys) :
    (InsertBefore q (some p) (some n)).1 = (true, none) ∧
    (InsertBefore q (some p) (some n)).2.head = headOr xs (some n) ∧
    (InsertBefore q (some p) (some n)).2.tail = q.tail ∧
    (∀ b, ((InsertBefore q (some p) (some n)).2.heap b).prev =
      if b = p then some n else if b = n then lastOr xs none
      else (q.heap b).prev) ∧
    (∀ b, ((InsertBefore q (some p) (some n)).2.heap b).next =
      if b = n then some p else if some b = lastOr xs none then some n
      else (q.heap b).next) := by
  obtain ⟨⟨-, -, hpxs, -, -⟩, hhead, htail, -, hnprev, hnnext, -⟩ := wf_split hwf
  have hnp : n ≠ p := by
    intro he; apply hn; simp [he]
  rcases eq_nil_or_snoc xs with rfl | ⟨xi, x, rfl⟩
  · simp [InsertBefore, hnprev, hnnext, hhead, htail, hnp]
  · have hnx : x ≠ n := by
      intro he; apply hn; simp [he]
    have hpx : p ≠ x := by
      intro he; apply hpxs; simp [he]
    have hph : some p ≠ headOr xi (some x) := by
      intro he
      apply hpxs
      apply headOr_mem
      rw [headOr_append]
      exact he.symm
    simp [InsertBefore, hnprev, hnnext, hhead, htail, hnp, hnx, hpx, hph,
      lastOr_append_singleton, headOr_append]
    intro b
    by_cases h1 : b = x
    · simp [h1, hnx]
    · simp [h1]

theorem nodup_insert_before {xs ys : List Nat} {p n : Nat} (h : (xs ++ p :: ys).Nodup)
    (hn : n ∉ xs ++ p :: ys) : (xs ++ n :: p :: ys).Nodup := by
  have h1 : (n :: (xs ++ p :: ys)).Nodup := List.nodup_cons.mpr ⟨hn, h⟩
  exact (@List.perm_middle _ n xs (p :: ys)).nodup_iff.mpr h1

theorem InsertBefore_wf (q : Queue α) (xs ys : List Nat) (p n : Nat)
    (hwf : WellFormed q (xs ++ p :: ys)) (hn : n ∉ xs ++ p :: ys) :
    WellFormed (InsertBefore q (some p) (some n)).2 (xs ++ n :: p :: ys) := by
  obtain ⟨_, hhd, htl, hprev, hnext⟩ := InsertBefore_links q xs ys p n hwf hn
  obtain ⟨⟨hndx, hndy, hpx, hpy, hdisj⟩, hhead, htail, hxs, hpprev, hpnext, hys⟩ := wf_split hwf
  have hnp : n ≠ p := by
    intro he; apply hn; simp [he]
  have hnx : n ∉ xs := fun hm => hn (List.mem_append_left _ hm)
  have hny : n ∉ ys := fun hm => hn (List.mem_append_right _ (List.mem_cons_of_mem _ hm))
  refine ⟨nodup_insert_before hwf.1 hn, ?_, ?_, ?_⟩
  · rw [hhd, ← headOr_none, headOr_append]; rfl
  · rw [htl, htail, ← lastOr_none, lastOr_append]; rfl
  · rw [seg_append]
    refine ⟨?_, ?_, ?_, ?_, ?_, ?_⟩
    · apply seg_left hxs hndx
      · intro a ha
        have h1 : a ≠ n := fun he => hnx (he ▸ ha)
        have h2 : a ≠ p := fun he => hpx (he ▸ ha)
        rw [hprev, if_neg h2, if_neg h1]
      · intro a ha
        have h1 : a ≠ n := fun he => hnx (he ▸ ha)
        rw [hnext, if_neg h1]
        rfl
    · rw [hprev, if_neg hnp, if_pos rfl]
    · rw [hnext, if_pos rfl]; rfl
    · rw [hprev, if_pos rfl]
    · have h2 : some p ≠ lastOr xs none := fun he => hpx (lastOr_none_mem he.symm)
      rw [hnext, if_neg hnp.symm, if_neg h2, hpnext]
    · apply seg_congr hys
      · intro a ha
        have h1 : a ≠ n := fun he => hny (he ▸ ha)
        have h2 : a ≠ p := fun he => hpy (he ▸ ha)
        rw [hprev, if_neg h2, if_neg h1]
      · intro a ha
        have h1 : a ≠ n := fun he => hny (he ▸ ha)
        have h2 : some a ≠ lastOr xs none :=
          fun he => hdisj a (lastOr_none_mem he.symm) ha
        rw [hnext, if_neg h1, if_neg h2]

/-! ## push and pop -/

theorem Empty_eq_true_iff (q : Queue α) : Empty q = true ↔ q.head = none ∧ q.tail = none := by
  unfold Empty
  simp only [Bool.and_eq_true, decide_eq_true_eq]
  constructor
  · rintro ⟨h1, h2⟩
    exact ⟨h2, h1 ▸ h2⟩
  · rintro ⟨h1, h2⟩
    exact ⟨h1.trans h2.symm, h1⟩

theorem Empty_of_head_some {q : Queue α} {a : Nat} (h : q.head = some a) : Empty q = false := by
  cases he : Empty q with
  | false => rfl
  | true =>
    rw [Empty_eq_true_iff] at he
    rw [he.1] at h
    cases h

theorem push_empty (q : Queue α) (n : Nat) (left : Bool) (he : Empty q = true) :
    push q (some n) left = some { q with heap := setPrev (setNext q.heap n none) n none,
                                         head := some n, tail := some n } := by
  simp only [push, he, if_true]

theorem push_right (q : Queue α) (n t : Nat) (he : Empty q = false) (ht : q.tail = some t) :
    push q (some n) false =
      some { q with heap := setNext (setPrev (setNext q.heap n none) n (some t)) t (some n),
                    tail := some n } := by
  simp [push, he, ht]

theorem pop_left_single (q : Queue α) (a : Nat) (hh : q.head = some a) (ht : q.tail = some a) :
    pop q true = some (some a, { q with head := none, tail := none,
                                        heap := setPrev (setNext q.heap a none) a none }) := by
  simp [pop, Empty_of_head_some hh, hh, ht]

theorem pop_left_more (q : Queue α) (a : Nat) (hh : q.head = some a) (ht : q.tail ≠ some a) :
    pop q true = some (some a, { q with head := (q.heap a).next,
                                        heap := setPrev (setNext q.heap a none) a none }) := by
  have h : ¬ (some a = q.tail) := fun he => ht he.symm
  simp [pop, Empty_of_head_some hh, hh, h]

/-- Calling `RPush` with a node that is not a member appends it to a well-formed queue. -/
theorem RPush_wf (q : Queue α) (ms : List Nat) (n : Nat)
    (hwf : WellFormed q ms) (hn : n ∉ ms) :
    ∃ q', RPush q (some n) = some q' ∧ WellFormed q' (ms ++ [n]) ∧ q'.pool = q.pool ∧
      q'.brk = q.brk ∧ ∀ b, (q'.heap b).V = (q.heap b).V := by
  obtain ⟨hnd, hhead, htail, hseg⟩ := hwf
  have hnd' : (ms ++ [n]).Nodup := by
    rw [List.nodup_append]
    refine ⟨hnd, List.nodup_singleton n, ?_⟩
    intro a ha hb
    rw [List.mem_singleton] at hb
    exact hn (hb ▸ ha)
  rcases eq_nil_or_snoc ms with rfl | ⟨r, t, rfl⟩
  · have he : Empty q = true := (Empty_eq_true_iff q).mpr ⟨hhead, htail⟩
    refine ⟨_, push_empty q n false he, ⟨hnd', rfl, rfl, ?_⟩, rfl, rfl, ?_⟩
    · simp [seg]
    · intro b; simp
  · have htl : q.tail = some t := by
      rw [htail, ← lastOr_none, lastOr_append_singleton]
    have hhd : q.head = headOr r (some t) := by
      rw [hhead, ← headOr_none, headOr_append]; rfl
    have he : Empty q = false := by
      cases r with
      | nil => exact Empty_of_head_some hhd
      | cons c u => exact Empty_of_head_some hhd
    have hnt : n ≠ t := by
      intro h; apply hn; simp [h]
    refine ⟨_, push_right q n t he htl, ⟨hnd', ?_, ?_, ?_⟩, rfl, rfl, ?_⟩
    · show q.head = _
      rw [hhd, ← headOr_none, headOr_append, headOr_append]; rfl
    · show some n = _
      rw [← lastOr_none, lastOr_append_singleton]
    · rw [seg_append]
      refine ⟨?_, ?_, ?_, trivial⟩
      · apply seg_left hseg hnd
        · intro a ha
          have h1 : a ≠ n := fun he => hn (he ▸ ha)
          simp [h1]
        · intro a ha
          have h1 : a ≠ n := fun he => hn (he ▸ ha)
          simp [h1, lastOr_append_singleton]
      · simp [lastOr_append_singleton]
      · simp [hnt]
    · intro b; simp

theorem seg_fwd {h : Nat → QNode α} {p : Ptr} {l : List Nat} (hs : seg h p l none) :
    fwd h l := by
  induction l generalizing p with
  | nil => trivial
  | cons a r ih => exact ⟨hs.2.1, ih hs.2.2⟩

theorem WellFormed.forward {q : Queue α} {ms : List Nat} (hwf : WellFormed q ms) :
    Forward q ms :=
  ⟨hwf.1, hwf.2.1, hwf.2.2.1, seg_fwd hwf.2.2.2⟩

theorem fwd_congr {h h' : Nat → QNode α} {l : List Nat} (hs : fwd h l)
    (hnext : ∀ a ∈ l, (h' a).next = (h a).next) : fwd h' l := by
  induction l with
  | nil => trivial
  | cons a r ih =>
    exact ⟨by rw [hnext a (List.mem_cons_self _ _), hs.1],
      ih hs.2 (fun b hb => hnext b (List.mem_cons_of_mem _ hb))⟩

/-- Calling `LPop` on a queue whose forward links are in order returns the first
member, cleared, and leaves the rest in order. -/
theorem LPop_forward (q : Queue α) (a : Nat) (r : List Nat) (hf : Forward q (a :: r)) :
    ∃ q', LPop q = some (some a, q') ∧ Forward q' r ∧
      (q'.heap a).prev = none ∧ (q'.heap a).next = none ∧
      q'.pool = q.pool ∧ q'.brk = q.brk ∧ ∀ b, (q'.heap b).V = (q.heap b).V := by
  obtain ⟨hnd, hhead, htail, hnx, hfw⟩ := hf
  have hnd' := List.nodup_cons.mp hnd
  have hhd : q.head = some a := hhead
  have he : Empty q = false := Empty_of_head_some hhd
  have hfw' : fwd (setPrev (setNext q.heap a none) a none) r := by
    apply fwd_congr hfw
    intro b hb
    have h1 : b ≠ a := fun h => hnd'.1 (h ▸ hb)
    simp [h1]
  cases r with
  | nil =>
    have htl : q.tail = some a := htail
    refine ⟨_, pop_left_single q a hhd htl, ⟨List.nodup_nil, rfl, rfl, trivial⟩,
      ?_, ?_, rfl, rfl, ?_⟩ <;> simp
  | cons c t =>
    have htl : q.tail = lastOr t (some c) := by
      rw [htail, ← lastOr_none]; rfl
    have hne : (some a : Ptr) ≠ lastOr t (some c) := by
      intro h
      apply hnd'.1
      apply lastOr_mem (List.cons_ne_nil c t) (d := none)
      rw [lastOr_cons]
      exact h.symm
    have hnx' : (q.heap a).next = some c := hnx
    refine ⟨_, pop_left_more q a hhd (by rw [htl]; exact hne.symm),
      ⟨hnd'.2, hnx', ?_, hfw'⟩, ?_, ?_, rfl, rfl, ?_⟩
    · show q.tail = _
      rw [htl, ← lastOr_none]; rfl
    · simp
    · simp
    · intro b; simp

theorem RPop_returns_tail (q : Queue α) (a : Nat) (hh : q.head ≠ none) (ht : q.tail = some a) :
    ∃ q', RPop q = some (some a, q') := by
  have he : Empty q = false := by
    cases h : Empty q with
    | false => rfl
    | true => exact absurd ((Empty_eq_true_iff q).mp h).1 hh
  exact ⟨_, by simp only [RPop, pop, he, ht]; rfl⟩

/-! ## The drivers -/

/-- With an empty pool, `NewQNode` allocates the node at `brk`. -/
theorem NewQNode_fresh (q : Queue α) (pick : Nat) (v : Option α) (hp : q.pool = []) :
    (NewQNode q pick v).1 = q.brk ∧ (NewQNode q pick v).2.head = q.head ∧
    (NewQNode q pick v).2.tail = q.tail ∧ (NewQNode q pick v).2.pool = [] ∧
    (NewQNode q pick v).2.brk = q.brk + 1 ∧ ((NewQNode q pick v).2.heap q.brk).V = v ∧
    ∀ b, b ≠ q.brk → (NewQNode q pick v).2.heap b = q.heap b := by
  have hg : poolGet q pick =
      (q.brk, { q with heap := fun b => if b = q.brk then ⟨none, none, none⟩ else q.heap b,
                       brk := q.brk + 1 }) := by
    simp [poolGet, hp]
  rw [NewQNode, hg]
  refine ⟨rfl, rfl, rfl, hp, rfl, ?_, ?_⟩
  · simp
  · intro b hb
    simp [reset, setV, setNext, setPrev, hb]

theorem rpushAll_wf (calls : List (Nat × Option α)) :
    ∀ (q : Queue α) (ms : List Nat), WellFormed q ms → q.pool = [] → (∀ a ∈ ms, a < q.brk) →
    ∃ q', rpushAll q calls = some (List.range' q.brk calls.length, q') ∧
      WellFormed q' (ms ++ List.range' q.brk calls.length) ∧
      (List.range' q.brk calls.length).map (fun a => (q'.heap a).V) = calls.map Prod.snd ∧
      ∀ b, b < q.brk → (q'.heap b).V = (q.heap b).V := by
  induction calls with
  | nil =>
    intro q ms hwf _ _
    exact ⟨q, rfl, by simpa using hwf, rfl, fun _ _ => rfl⟩
  | cons c rest ih =>
    intro q ms hwf hp hlt
    obtain ⟨hn, hhd, htl, hpool, hbrk, hV, hframe⟩ := NewQNode_fresh q c.1 c.2 hp
    have hwf0 : WellFormed (NewQNode q c.1 c.2).2 ms := by
      refine ⟨hwf.1, hhd ▸ hwf.2.1, htl ▸ hwf.2.2.1, ?_⟩
      apply seg_congr hwf.2.2.2
      · intro a ha
        rw [hframe a (Nat.ne_of_lt (hlt a ha))]
      · intro a ha
        rw [hframe a (Nat.ne_of_lt (hlt a ha))]
    have hnm : q.brk ∉ ms := fun hm => Nat.lt_irrefl _ (hlt _ hm)
    obtain ⟨q1, hpush, hwf1, hpool1, hbrk1, hV1⟩ := RPush_wf _ ms q.brk hwf0 hnm
    have hlt1 : ∀ a ∈ ms ++ [q.brk], a < q1.brk := by
      intro a ha
      rw [hbrk1, hbrk]
      rcases List.mem_append.mp ha with h | h
      · exact Nat.lt_succ_of_lt (hlt a h)
      · rw [List.mem_singleton.mp h]; exact Nat.lt_succ_self _
    obtain ⟨q2, hrest, hwf2, hvals, hframe2⟩ := ih q1 (ms ++ [q.brk]) hwf1 (hpool1.trans hpool) hlt1
    rw [hbrk1, hbrk] at hrest hwf2 hvals hframe2
    refine ⟨q2, ?_, ?_, ?_, ?_⟩
    · simp only [rpushAll, hn, hpush, hrest, List.length_cons, List.range'_succ]
    · rw [List.length_cons, List.range'_succ]
      simpa using hwf2
    · rw [List.length_cons, List.range'_succ, List.map_cons, List.map_cons, hvals,
        hframe2 q.brk (Nat.lt_succ_self _), hV1, hV]
    · intro b hb
      rw [hframe2 b (Nat.lt_succ_of_lt hb), hV1, hframe b (Nat.ne_of_lt hb)]

theorem wellFormed_NewQueue (heap : Nat → QNode α) (brk : Nat) :
    WellFormed (NewQueue heap brk) [] :=
  ⟨List.nodup_nil, rfl, rfl, trivial⟩

theorem lpopN_forward (ms : List Nat) :
    ∀ (q : Queue α), Forward q ms →
    ∃ q', lpopN ms.length q = some (ms.map (fun a => (some a, (q.heap a).V)), q') ∧
      q'.head = none ∧ q'.tail = none := by
  induction ms with
  | nil =>
    intro q hf
    exact ⟨q, rfl, hf.2.1, hf.2.2.1⟩
  | cons a r ih =>
    intro q hf
    obtain ⟨q1, hpop, hf1, -, -, -, -, hV⟩ := LPop_forward q a r hf
    obtain ⟨q2, hrest, hh, ht⟩ := ih q1 hf1
    refine ⟨q2, ?_, hh, ht⟩
    simp only [lpopN, List.length_cons, hpop, hrest, readV, List.map_cons, hV]

theorem pop_of_empty (q : Queue α) (left : Bool) (hh : q.head = none) (ht : q.tail = none) :
    Empty q = true ∧ pop q left = some (none, q) := by
  have he : Empty q = true := (Empty_eq_true_iff q).mpr ⟨hh, ht⟩
  exact ⟨he, by simp [pop, he]⟩

theorem Delete_V (q : Queue α) (n : Ptr) (b : Nat) :
    ((Delete q n).2.heap b).V = (q.heap b).V := by
  cases n with
  | none => rfl
  | some a =>
    simp only [Delete]
    split <;> split <;> simp

/-! ## LPush -/

theorem push_left (q : Queue α) (n t : Nat) (he : Empty q = false) (ht : q.head = some t) :
    push q (some n) true =
      some { q with heap := setPrev (setPrev (setNext q.heap n (some t)) n none) t (some n),
                    head := some n } := by
  simp [push, he, ht]

/-- Calling `LPush` with a node that is not a member puts it in front of a
well-formed queue. -/
theorem LPush_wf (q : Queue α) (ms : List Nat) (n : Nat)
    (hwf : WellFormed q ms) (hn : n ∉ ms) :
    ∃ q', LPush q (some n) = some q' ∧ WellFormed q' (n :: ms) ∧ q'.pool = q.pool ∧
      q'.brk = q.brk ∧ ∀ b, (q'.heap b).V = (q.heap b).V := by
  obtain ⟨hnd, hhead, htail, hseg⟩ := hwf
  have hnd' : (n :: ms).Nodup := List.nodup_cons.mpr ⟨hn, hnd⟩
  cases ms with
  | nil =>
    have he : Empty q = true := (Empty_eq_true_iff q).mpr ⟨hhead, htail⟩
    refine ⟨_, push_empty q n true he, ⟨hnd', rfl, rfl, ?_⟩, rfl, rfl, ?_⟩
    · simp [seg]
    · intro b; simp
  | cons t r =>
    have hhd : q.head = some t := hhead
    have he : Empty q = false := Empty_of_head_some hhd
    have hnt : n ≠ t := fun h => hn (h ▸ List.mem_cons_self _ _)
    refine ⟨_, push_left q n t he hhd, ⟨hnd', rfl, ?_, ?_, ?_, ?_⟩, rfl, rfl, ?_⟩
    · show q.tail = _
      rw [htail]; rfl
    · simp [hnt]
    · simp [hnt]
    · apply seg_right hseg hnd
      · intro a ha
        have h1 : a ≠ n := fun he => hn (he ▸ ha)
        simp [h1]
      · intro a ha
        have h1 : a ≠ n := fun he => hn (he ▸ ha)
        simp [h1]
    · intro b; simp

theorem lpushAll_wf (calls : List (Nat × Option α)) :
    ∀ (q : Queue α) (ms : List Nat), WellFormed q ms → q.pool = [] → (∀ a ∈ ms, a < q.brk) →
    ∃ q', lpushAll q calls = some (List.range' q.brk calls.length, q') ∧
      WellFormed q' ((List.range' q.brk calls.length).reverse ++ ms) ∧
      (List.range' q.brk calls.length).map (fun a => (q'.heap a).V) = calls.map Prod.snd ∧
      ∀ b, b < q.brk → (q'.heap b).V = (q.heap b).V := by
  induction calls with
  | nil =>
    intro q ms hwf _ _
    exact ⟨q, rfl, by simpa using hwf, rfl, fun _ _ => rfl⟩
  | cons c rest ih =>
    intro q ms hwf hp hlt
    obtain ⟨hn, hhd, htl, hpool, hbrk, hV, hframe⟩ := NewQNode_fresh q c.1 c.2 hp
    have hwf0 : WellFormed (NewQNode q c.1 c.2).2 ms := by
      refine ⟨hwf.1, hhd ▸ hwf.2.1, htl ▸ hwf.2.2.1, ?_⟩
      apply seg_congr hwf.2.2.2
      · intro a ha
        rw [hframe a (Nat.ne_of_lt (hlt a ha))]
      · intro a ha
        rw [hframe a (Nat.ne_of_lt (hlt a ha))]
    have hnm : q.brk ∉ ms := fun hm => Nat.lt_irrefl _ (hlt _ hm)
    obtain ⟨q1, hpush, hwf1, hpool1, hbrk1, hV1⟩ := LPush_wf _ ms q.brk hwf0 hnm
    have hlt1 : ∀ a ∈ q.brk :: ms, a < q1.brk := by
      intro a ha
      rw [hbrk1, hbrk]
      rcases List.mem_cons.mp ha with h | h
      · rw [h]; exact Nat.lt_succ_self _
      · exact Nat.lt_succ_of_lt (hlt a h)
    obtain ⟨q2, hrest, hwf2, hvals, hframe2⟩ := ih q1 (q.brk :: ms) hwf1 (hpool1.trans hpool) hlt1
    rw [hbrk1, hbrk] at hrest hwf2 hvals hframe2
    refine ⟨q2, ?_, ?_, ?_, ?_⟩
    · simp only [lpushAll, hn, hpush, hrest, List.length_cons, List.range'_succ]
    · rw [List.length_cons, List.range'_succ]
      simpa using hwf2
    · rw [List.length_cons, List.range'_succ, List.map_cons, List.map_cons, hvals,
        hframe2 q.brk (Nat.lt_succ_self _), hV1, hV]
    · intro b hb
      rw [hframe2 b (Nat.lt_succ_of_lt hb), hV1, hframe b (Nat.ne_of_lt hb)]

/-! ## Frames -/

theorem push_V (q q' : Queue α) (n : Ptr) (left : Bool) (h : push q n left = some q')
    (b : Nat) : (q'.heap b).V = (q.heap b).V := by
  unfold push at h
  split at h
  · cases h
  · split at h
    · cases h; simp
    · split at h
      · split at h
        · cases h
        · cases h; simp
      · split at h
        · cases h
        · cases h; simp

theorem pop_V (q q' : Queue α) (r : Ptr) (left : Bool) (h : pop q left = some (r, q'))
    (b : Nat) : (q'.heap b).V = (q.heap b).V := by
  unfold pop at h
  split at h
  · cases h; rfl
  · split at h
    · split at h
      · cases h
      · cases h
        simp only [setPrev_V, setNext_V]
        split <;> rfl
    · split at h
      · cases h
      · cases h
        simp only [setPrev_V, setNext_V]
        split <;> rfl

theorem InsertAfter_V (q : Queue α) (p n : Ptr) (b : Nat) :
    ((InsertAfter q p n).2.heap b).V = (q.heap b).V := by
  cases p with
  | none => rfl
  | some p =>
    cases n with
    | none => rfl
    | some a =>
      simp only [InsertAfter]
      split <;> simp

theorem InsertBefore_V (q : Queue α) (p n : Ptr) (b : Nat) :
    ((InsertBefore q p n).2.heap b).V = (q.heap b).V := by
  cases p with
  | none => rfl
  | some p =>
    cases n with
    | none => rfl
    | some a =>
      simp only [InsertBefore]
      split <;> simp

theorem setLinks_none_self (h : Nat → QNode α) (n : Nat) (hp : (h n).prev = none)
    (hn : (h n).next = none) : setNext (setPrev h n none) n none = h := by
  funext b
  unfold setNext setPrev
  by_cases hb : b = n
  · subst hb
    simp only [if_true]
    cases hq : h b with
    | mk p x v =>
      rw [hq] at hp hn
      simp only at hp hn
      rw [hp, hn]
  · simp only [if_neg hb]

end Lemmas

/-! ## The claims -/

/-- C2 (the code departs from it): on the well-formed queue `0 ⇄ 1 ⇄ 2`, `LPop`
returns node 0 but the new head, node 1, keeps `prev = 0`, so what is left is
not a well-formed queue of the members 1 and 2; `RPop` returns node 2 but the
new tail, node 1, keeps `next = 2`. -/
theorem pop_keeps_link_to_popped_node :
    WellFormed chain3 [0, 1, 2] ∧
    (LPop chain3).map (fun r => (r.1, r.2.head, (r.2.heap 1).prev,
      decide (WellFormed r.2 [1, 2]))) = some (some 0, some 1, some 0, false) ∧
    (RPop chain3).map (fun r => (r.1, r.2.tail, (r.2.heap 1).next,
      decide (WellFormed r.2 [0, 1]))) = some (some 2, some 1, some 2, false) := by
  decide

/-- C3 (the code departs from it): after two pushes on the right and one
`LPop` the only member is node 1, and following `next` from `head` visits
exactly node 1, but following `prev` from `tail` visits node 1 and then the
popped node 0.  After three pushes, `LPop` and `Delete` of the new head, the
only member is node 2, but following `next` from `head` visits the deleted
node 1 and never node 2. -/
theorem walkPrev_reaches_popped_node :
    (run (NewQueue zeroHeap 0) [] (pushTwo ++ [.LPop])).map
      (fun s => (s.2, walkNext s.1.heap 8 s.1.head, walkPrev s.1.heap 8 s.1.tail)) =
      some ([1], [1], [1, 0]) ∧
    (run (NewQueue zeroHeap 0) [] (pushThree ++ [.LPop, .Delete (some 1)])).map
      (fun s => (s.2, walkNext s.1.heap 8 s.1.head, walkPrev s.1.heap 8 s.1.tail)) =
      some ([2], [1], [2, 0]) := by
  decide

/-- C4 (the code departs from it): after two pushes on the right and one
`LPop`, node 1 is the only member; `Delete` of it returns `(true, nil)` but
leaves `head` at node 1 and sets `tail` to the popped node 0, so `Empty` is
false. -/
theorem delete_sole_member_after_pop :
    (run (NewQueue zeroHeap 0) [] (pushTwo ++ [.LPop])).map
      (fun s => (s.2, (Delete s.1 (some 1)).1, (Delete s.1 (some 1)).2.head,
        (Delete s.1 (some 1)).2.tail, Empty (Delete s.1 (some 1)).2)) =
      some ([1], (true, none), some 1, some 0, false) := by
  decide

/-- C5 (the code departs from it): the calls of `popDeletePop` respect the
contracts and end with `head` nil, `tail` at node 2 and node 2 a member; and
after two pushes, `LPop` and `Delete` of the remaining member there is no
member left while `head` and `tail` are both set. -/
theorem head_nil_tail_set_reachable :
    (run (NewQueue zeroHeap 0) [] popDeletePop).map (fun s => (s.2, s.1.head, s.1.tail)) =
      some ([2], none, some 2) ∧
    (run (NewQueue zeroHeap 0) [] (pushTwo ++ [.LPop, .Delete (some 1)])).map
      (fun s => (s.2, s.1.head, s.1.tail)) = some ([], some 1, some 0) := by
  decide

/-- C6 (the code departs from it): in the state reached by `popDeletePop`,
`LPop` dereferences the nil `head`, and so does `LPush` of the unlinked
node 0. -/
theorem pop_and_push_panic_reachable :
    (run (NewQueue zeroHeap 0) [] popDeletePop).map
      (fun s => (unlinked s.1 s.2 (some 0), (LPop s.1).isNone, (LPush s.1 (some 0)).isNone)) =
      some (true, true, true) := by
  decide

/-- C1: for every list of calls `RPush(NewQNode(v))` on a new queue (whatever
the memory it starts in and whatever the pool chooses), the pushes succeed,
and as many calls of `LPop` return the pushed nodes in the order pushed, the
values read from them being the values given in the same order; the queue is
then empty and a further `LPop` returns nil. -/
theorem rpush_lpop_fifo (heap : Nat → QNode α) (brk : Nat) (calls : List (Nat × Option α)) :
    ∃ nodes q1 rs q2,
      rpushAll (NewQueue heap brk) calls = some (nodes, q1) ∧
      lpopN calls.length q1 = some (rs, q2) ∧
      rs.map Prod.fst = nodes.map some ∧
      rs.map Prod.snd = calls.map Prod.snd ∧
      Empty q2 = true ∧ LPop q2 = some (none, q2) := by
  obtain ⟨q1, hpush, hwf, hvals, -⟩ :=
    rpushAll_wf calls (NewQueue heap brk) [] (wellFormed_NewQueue heap brk) rfl
      (fun _ h => absurd h (List.not_mem_nil _))
  rw [List.nil_append] at hwf
  obtain ⟨q2, hpop, hh, ht⟩ := lpopN_forward _ q1 hwf.forward
  rw [List.length_range'] at hpop
  refine ⟨_, q1, _, q2, hpush, hpop, ?_, ?_, (pop_of_empty q2 true hh ht).1,
    (pop_of_empty q2 true hh ht).2⟩
  · rw [List.map_map]; rfl
  · rw [List.map_map, ← hvals]; rfl

/-- C7: `Delete` of a member `n` of a well-formed queue with members
`xs ++ n :: ys` returns `(true, nil)`, leaves `n` with `prev = next = nil`, and
leaves a well-formed queue with members `xs ++ ys`, whose `head` and `tail`
are the first and the last of `xs ++ ys` (nil when there is none). -/
theorem Delete_removes_member (q : Queue α) (xs ys : List Nat) (n : Nat)
    (hwf : WellFormed q (xs ++ n :: ys)) :
    (Delete q (some n)).1 = (true, none) ∧
    ((Delete q (some n)).2.heap n).prev = none ∧
    ((Delete q (some n)).2.heap n).next = none ∧
    WellFormed (Delete q (some n)).2 (xs ++ ys) ∧
    (Delete q (some n)).2.head = (xs ++ ys).head? ∧
    (Delete q (some n)).2.tail = (xs ++ ys).getLast? := by
  obtain ⟨hres, -, -, hprev, hnext⟩ := Delete_links q xs ys n hwf
  have hwf' := Delete_wf q xs ys n hwf
  refine ⟨hres, ?_, ?_, hwf', hwf'.2.1, hwf'.2.2.1⟩
  · rw [hprev, if_pos rfl]
  · rw [hnext, if_pos rfl]

/-- Witness of C7 on the queue `0 ⇄ 1 ⇄ 2`, deleting node 1. -/
theorem Delete_removes_member_witness :
    WellFormed chain3 ([0] ++ 1 :: [2]) ∧
    ((Delete chain3 (some 1)).1 = (true, none) ∧
    ((Delete chain3 (some 1)).2.heap 1).prev = none ∧
    ((Delete chain3 (some 1)).2.heap 1).next = none ∧
    WellFormed (Delete chain3 (some 1)).2 ([0] ++ [2]) ∧
    (Delete chain3 (some 1)).2.head = ([0] ++ [2]).head? ∧
    (Delete chain3 (some 1)).2.tail = ([0] ++ [2]).getLast?) :=
  ⟨by decide, Delete_removes_member chain3 [0] [2] 1 (by decide)⟩

/-- C8: on a well-formed queue with members `xs ++ p :: ys`, `InsertAfter` of a
node `n` that is not a member, after the pivot `p`, returns `(true, nil)` and
leaves a well-formed queue with members `xs ++ p :: n :: ys`; `head` is
unchanged; `tail` becomes `n` exactly when `p` was the tail and is unchanged
otherwise; and when `p` was the tail the next `RPop` returns `n`. -/
theorem InsertAfter_splices (q : Queue α) (xs ys : List Nat) (p n : Nat)
    (hwf : WellFormed q (xs ++ p :: ys)) (hn : n ∉ xs ++ p :: ys) :
    (InsertAfter q (some p) (some n)).1 = (true, none) ∧
    WellFormed (InsertAfter q (some p) (some n)).2 (xs ++ p :: n :: ys) ∧
    (InsertAfter q (some p) (some n)).2.head = q.head ∧
    ((InsertAfter q (some p) (some n)).2.tail = some n ↔ q.tail = some p) ∧
    (q.tail ≠ some p → (InsertAfter q (some p) (some n)).2.tail = q.tail) ∧
    (q.tail = some p →
      ∃ q', RPop (InsertAfter q (some p) (some n)).2 = some (some n, q')) := by
  obtain ⟨hres, hhd, htl, -, -⟩ := InsertAfter_links q xs ys p n hwf hn
  obtain ⟨⟨-, -, -, hpy, -⟩, hhead, htail, -⟩ := wf_split hwf
  have hny : n ∉ ys := fun hm => hn (List.mem_append_right _ (List.mem_cons_of_mem _ hm))
  have hhne : q.head ≠ none := by
    rw [hhead]
    cases xs <;> simp
  have hiff : (InsertAfter q (some p) (some n)).2.tail = some n ↔ q.tail = some p := by
    rw [htl, htail]
    cases ys with
    | nil => simp
    | cons y t =>
      have h1 : lastOr (y :: t) (some n) = lastOr (y :: t) none :=
        lastOr_of_ne_nil (List.cons_ne_nil y t) _ _
      have h2 : lastOr (y :: t) (some p) = lastOr (y :: t) none :=
        lastOr_of_ne_nil (List.cons_ne_nil y t) _ _
      rw [h1, h2]
      constructor
      · intro h; exact absurd (lastOr_none_mem h) hny
      · intro h; exact absurd (lastOr_none_mem h) hpy
  refine ⟨hres, InsertAfter_wf q xs ys p n hwf hn, hhd, hiff, ?_, ?_⟩
  · intro hne
    rw [htl, htail]
    cases ys with
    | nil => exact absurd htail hne
    | cons y t =>
      rw [lastOr_of_ne_nil (List.cons_ne_nil y t) (some n) (some p)]
  · intro hp
    exact RPop_returns_tail _ n (by rw [hhd]; exact hhne) (hiff.mpr hp)

/-- Witness of C8 on the queue `0 ⇄ 1 ⇄ 2`, inserting node 3 after the tail. -/
theorem InsertAfter_splices_witness :
    WellFormed chain3 ([0, 1] ++ 2 :: []) ∧ 3 ∉ [0, 1] ++ 2 :: [] ∧
    ((InsertAfter chain3 (some 2) (some 3)).1 = (true, none) ∧
    WellFormed (InsertAfter chain3 (some 2) (some 3)).2 ([0, 1] ++ 2 :: 3 :: []) ∧
    (InsertAfter chain3 (some 2) (some 3)).2.head = chain3.head ∧
    ((InsertAfter chain3 (some 2) (some 3)).2.tail = some 3 ↔ chain3.tail = some 2) ∧
    (chain3.tail ≠ some 2 → (InsertAfter chain3 (some 2) (some 3)).2.tail = chain3.tail) ∧
    (chain3.tail = some 2 →
      ∃ q', RPop (InsertAfter chain3 (some 2) (some 3)).2 = some (some 3, q'))) :=
  ⟨by decide, by decide, InsertAfter_splices chain3 [0, 1] [] 2 3 (by decide) (by decide)⟩

/-- C9: on a well-formed queue with members `xs ++ p :: ys`, `InsertBefore` of
a node `n` that is not a member, before the pivot `p`, returns `(true, nil)`
and leaves a well-formed queue with members `xs ++ n :: p :: ys`; `tail` is
unchanged; `head` becomes `n` exactly when `p` was the head and is unchanged
otherwise; and when `p` was the head the next `LPop` returns `n`. -/
theorem InsertBefore_splices (q : Queue α) (xs ys : List Nat) (p n : Nat)
    (hwf : WellFormed q (xs ++ p :: ys)) (hn : n ∉ xs ++ p :: ys) :
    (InsertBefore q (some p) (some n)).1 = (true, none) ∧
    WellFormed (InsertBefore q (some p) (some n)).2 (xs ++ n :: p :: ys) ∧
    (InsertBefore q (some p) (some n)).2.tail = q.tail ∧
    ((InsertBefore q (some p) (some n)).2.head = some n ↔ q.head = some p) ∧
    (q.head ≠ some p → (InsertBefore q (some p) (some n)).2.head = q.head) ∧
    (q.head = some p →
      ∃ q', LPop (InsertBefore q (some p) (some n)).2 = some (some n, q')) := by
  obtain ⟨hres, hhd, htl, -, -⟩ := InsertBefore_links q xs ys p n hwf hn
  obtain ⟨⟨-, -, hpx, -, -⟩, hhead, htail, -⟩ := wf_split hwf
  have hnx : n ∉ xs := fun hm => hn (List.mem_append_left _ hm)
  have hwf' := InsertBefore_wf q xs ys p n hwf hn
  have hxs : q.head = some p → xs = [] := by
    intro h
    rw [hhead] at h
    cases xs with
    | nil => rfl
    | cons x t =>
      simp only [headOr_cons, Option.some.injEq] at h
      exact absurd (h ▸ List.mem_cons_self x t) hpx
  have hiff : (InsertBefore q (some p) (some n)).2.head = some n ↔ q.head = some p := by
    rw [hhd, hhead]
    cases xs with
    | nil => simp
    | cons x t =>
      simp only [headOr_cons, Option.some.injEq]
      constructor
      · intro h; exact absurd (h ▸ List.mem_cons_self x t) hnx
      · intro h; exact absurd (h ▸ List.mem_cons_self x t) hpx
  refine ⟨hres, hwf', htl, hiff, ?_, ?_⟩
  · intro hne
    rw [hhd, hhead]
    cases xs with
    | nil => exact absurd hhead hne
    | cons x t => rfl
  · intro hp
    have hnil := hxs hp
    subst hnil
    obtain ⟨q', hpop, -⟩ := LPop_forward _ n (p :: ys) hwf'.forward
    exact ⟨q', hpop⟩

/-- Witness of C9 on the queue `0 ⇄ 1 ⇄ 2`, inserting node 3 before the head. -/
theorem InsertBefore_splices_witness :
    WellFormed chain3 ([] ++ 0 :: [1, 2]) ∧ 3 ∉ [] ++ 0 :: [1, 2] ∧
    ((InsertBefore chain3 (some 0) (some 3)).1 = (true, none) ∧
    WellFormed (InsertBefore chain3 (some 0) (some 3)).2 ([] ++ 3 :: 0 :: [1, 2]) ∧
    (InsertBefore chain3 (some 0) (some 3)).2.tail = chain3.tail ∧
    ((InsertBefore chain3 (some 0) (some 3)).2.head = some 3 ↔ chain3.head = some 0) ∧
    (chain3.head ≠ some 0 → (InsertBefore chain3 (some 0) (some 3)).2.head = chain3.head) ∧
    (chain3.head = some 0 →
      ∃ q', LPop (InsertBefore chain3 (some 0) (some 3)).2 = some (some 3, q'))) :=
  ⟨by decide, by decide, InsertBefore_splices chain3 [] [1, 2] 0 3 (by decide) (by decide)⟩

/-- C10: after `RPush(NewQNode(v))` for each value on a new queue and `Delete`
of the `i`-th pushed node, which returns `(true, nil)`, one `LPop` fewer than
there were pushes returns the pushed nodes without the `i`-th, in the order
pushed, the values read from them being the given values without the `i`-th;
the queue is then empty and a further `LPop` returns nil. -/
theorem delete_then_drain (heap : Nat → QNode α) (brk : Nat) (calls : List (Nat × Option α))
    (i : Nat) (hi : i < calls.length) :
    ∃ nodes q1 n q2 rs q3,
      rpushAll (NewQueue heap brk) calls = some (nodes, q1) ∧
      nodes[i]? = some n ∧
      Delete q1 (some n) = ((true, none), q2) ∧
      lpopN (calls.length - 1) q2 = some (rs, q3) ∧
      rs.map Prod.fst = (nodes.eraseIdx i).map some ∧
      rs.map Prod.snd = (calls.map Prod.snd).eraseIdx i ∧
      Empty q3 = true ∧ LPop q3 = some (none, q3) := by
  obtain ⟨q1, hpush, hwf, hvals, -⟩ :=
    rpushAll_wf calls (NewQueue heap brk) [] (wellFormed_NewQueue heap brk) rfl
      (fun _ h => absurd h (List.not_mem_nil _))
  rw [List.nil_append] at hwf
  generalize hnodes : List.range' (NewQueue heap brk).brk calls.length = nodes at hpush hwf hvals
  have hlen : nodes.length = calls.length := by rw [← hnodes, List.length_range']
  have hi' : i < nodes.length := hlen ▸ hi
  have hsplit : nodes.take i ++ nodes[i] :: nodes.drop (i + 1) = nodes := by
    rw [← List.drop_eq_getElem_cons hi', List.take_append_drop]
  have hwf1 : WellFormed q1 (nodes.take i ++ nodes[i] :: nodes.drop (i + 1)) := by
    rw [hsplit]; exact hwf
  have hwf2 := Delete_wf q1 _ _ _ hwf1
  have hres := (Delete_links q1 _ _ _ hwf1).1
  rw [← List.eraseIdx_eq_take_drop_succ] at hwf2
  obtain ⟨q3, hpop, hh, ht⟩ := lpopN_forward _ _ hwf2.forward
  rw [List.length_eraseIdx, if_pos hi', hlen] at hpop
  refine ⟨nodes, q1, nodes[i], (Delete q1 (some nodes[i])).2, _, q3, hpush,
    List.getElem?_eq_getElem hi', Prod.ext hres rfl, hpop, ?_, ?_,
    (pop_of_empty q3 true hh ht).1, (pop_of_empty q3 true hh ht).2⟩
  · rw [List.map_map]; rfl
  · have hfun : (Prod.snd ∘ fun a => ((some a : Ptr), ((Delete q1 (some nodes[i])).2.heap a).V)) =
        fun a => (q1.heap a).V := by
      funext a
      exact Delete_V q1 _ a
    rw [List.map_map, ← hvals, hfun, List.eraseIdx_eq_take_drop_succ,
      List.eraseIdx_eq_take_drop_succ, List.map_append, List.map_take, List.map_drop]

/-- Witness of C10: three values pushed in the zero memory, the middle node
deleted. -/
theorem delete_then_drain_witness :
    1 < [(0, some 10), (0, some 11), (0, some 12)].length ∧
    ∃ nodes q1 n q2 rs q3,
      rpushAll (NewQueue zeroHeap 0) [(0, some 10), (0, some 11), (0, some 12)] =
        some (nodes, q1) ∧
      nodes[1]? = some n ∧
      Delete q1 (some n) = ((true, none), q2) ∧
      lpopN ([(0, some 10), (0, some 11), (0, some 12)].length - 1) q2 = some (rs, q3) ∧
      rs.map Prod.fst = (nodes.eraseIdx 1).map some ∧
      rs.map Prod.snd =
        ([(0, some 10), (0, some 11), (0, some 12)].map Prod.snd).eraseIdx 1 ∧
      Empty q3 = true ∧ LPop q3 = some (none, q3) :=
  ⟨by decide, delete_then_drain zeroHeap 0 [(0, some 10), (0, some 11), (0, some 12)] 1
    (by decide)⟩

/-- C11: for every list of calls `LPush(NewQNode(v))` on a new queue (whatever
the memory it starts in and whatever the pool chooses), the pushes succeed,
and as many calls of `LPop` return the pushed nodes in the reverse of the
order pushed, the values read from them being the given values reversed; the
queue is then empty. -/
theorem lpush_lpop_lifo (heap : Nat → QNode α) (brk : Nat) (calls : List (Nat × Option α)) :
    ∃ nodes q1 rs q2,
      lpushAll (NewQueue heap brk) calls = some (nodes, q1) ∧
      lpopN calls.length q1 = some (rs, q2) ∧
      rs.map Prod.fst = nodes.reverse.map some ∧
      rs.map Prod.snd = (calls.map Prod.snd).reverse ∧
      Empty q2 = true := by
  obtain ⟨q1, hpush, hwf, hvals, -⟩ :=
    lpushAll_wf calls (NewQueue heap brk) [] (wellFormed_NewQueue heap brk) rfl
      (fun _ h => absurd h (List.not_mem_nil _))
  rw [List.append_nil] at hwf
  obtain ⟨q2, hpop, hh, ht⟩ := lpopN_forward _ q1 hwf.forward
  rw [List.length_reverse, List.length_range'] at hpop
  refine ⟨_, q1, _, q2, hpush, hpop, ?_, ?_, (pop_of_empty q2 true hh ht).1⟩
  · rw [List.map_map]; rfl
  · rw [List.map_map, ← hvals, ← List.map_reverse]; rfl

/-- C12: whatever the pool holds and whatever it chooses, `NewQNode(v)` returns
a node with `prev = nil`, `next = nil` and `V = v`; in particular after
`Delete(n)` and `Recycle(n)`, when the pool hands out `n` again. -/
theorem NewQNode_clean (q : Queue α) (pick : Nat) (v : Option α) (n : Ptr) :
    (((NewQNode q pick v).2.heap (NewQNode q pick v).1).prev = none ∧
      ((NewQNode q pick v).2.heap (NewQNode q pick v).1).next = none ∧
      ((NewQNode q pick v).2.heap (NewQNode q pick v).1).V = v) ∧
    (((NewQNode (Recycle (Delete q n).2 n) pick v).2.heap
        (NewQNode (Recycle (Delete q n).2 n) pick v).1).prev = none ∧
      ((NewQNode (Recycle (Delete q n).2 n) pick v).2.heap
        (NewQNode (Recycle (Delete q n).2 n) pick v).1).next = none ∧
      ((NewQNode (Recycle (Delete q n).2 n) pick v).2.heap
        (NewQNode (Recycle (Delete q n).2 n) pick v).1).V = v) := by
  have key : ∀ (s : Queue α),
      ((NewQNode s pick v).2.heap (NewQNode s pick v).1).prev = none ∧
      ((NewQNode s pick v).2.heap (NewQNode s pick v).1).next = none ∧
      ((NewQNode s pick v).2.heap (NewQNode s pick v).1).V = v := by
    intro s
    simp [NewQNode, reset]
  exact ⟨key q, key _⟩

/-- C13 (as stated it fails): node 1 of the queue `0 ⇄ 1 ⇄ 2` is deleted and
recycled; the pool then holds it with its value 11 still in `V`.  Recycled
without the `Delete`, it also keeps `prev = 0` and `next = 2`. -/
theorem Recycle_keeps_payload :
    (Recycle (Delete chain3 (some 1)).2 (some 1)).pool = [1] ∧
    ((Recycle (Delete chain3 (some 1)).2 (some 1)).heap 1).V = some 11 ∧
    (Recycle chain3 (some 1)).pool = [1] ∧
    ((Recycle chain3 (some 1)).heap 1).V = some 11 ∧
    ((Recycle chain3 (some 1)).heap 1).prev = some 0 ∧
    ((Recycle chain3 (some 1)).heap 1).next = some 2 := by
  decide

/-- C13 (amended): `Recycle(n)` of a node that is not nil puts `n` in the pool
and changes neither `head`, `tail` nor any node, `n` included; the node is
cleared when `NewQNode` hands it out again: it then has `prev = nil`,
`next = nil` and the new value. -/
theorem Recycle_defers_clearing (q : Queue α) (n : Nat) (v : Option α) :
    (Recycle q (some n)).pool = n :: q.pool ∧
    (Recycle q (some n)).heap = q.heap ∧
    (Recycle q (some n)).head = q.head ∧
    (Recycle q (some n)).tail = q.tail ∧
    (NewQNode (Recycle q (some n)) 0 v).1 = n ∧
    ((NewQNode (Recycle q (some n)) 0 v).2.heap n).prev = none ∧
    ((NewQNode (Recycle q (some n)) 0 v).2.heap n).next = none ∧
    ((NewQNode (Recycle q (some n)) 0 v).2.heap n).V = v := by
  refine ⟨rfl, rfl, rfl, rfl, rfl, ?_, ?_, ?_⟩ <;> simp [NewQNode, Recycle, poolGet, reset]

/-- C14: `InsertAfter` and `InsertBefore` return `(false, "invalid node")`
exactly when the pivot or the node is nil, and then the whole state (`head`,
`tail`, every node) is unchanged; otherwise they return `(true, nil)`. -/
theorem Insert_invalid_iff (q : Queue α) (p n : Ptr) :
    (((InsertAfter q p n).1 = (false, some "invalid node") ↔ p = none ∨ n = none) ∧
      (p = none ∨ n = none → (InsertAfter q p n).2 = q) ∧
      (¬ (p = none ∨ n = none) → (InsertAfter q p n).1 = (true, none))) ∧
    (((InsertBefore q p n).1 = (false, some "invalid node") ↔ p = none ∨ n = none) ∧
      (p = none ∨ n = none → (InsertBefore q p n).2 = q) ∧
      (¬ (p = none ∨ n = none) → (InsertBefore q p n).1 = (true, none))) := by
  cases p <;> cases n <;> simp [InsertAfter, InsertBefore]

/-- Witness of C14: a nil pivot on the queue `0 ⇄ 1 ⇄ 2`. -/
theorem Insert_invalid_iff_witness :
    (((InsertAfter chain3 none (some 3)).1 = (false, some "invalid node") ↔
        (none : Ptr) = none ∨ some 3 = none) ∧
      ((none : Ptr) = none ∨ some 3 = none → (InsertAfter chain3 none (some 3)).2 = chain3) ∧
      (¬ ((none : Ptr) = none ∨ some 3 = none) →
        (InsertAfter chain3 none (some 3)).1 = (true, none))) ∧
    (((InsertBefore chain3 none (some 3)).1 = (false, some "invalid node") ↔
        (none : Ptr) = none ∨ some 3 = none) ∧
      ((none : Ptr) = none ∨ some 3 = none → (InsertBefore chain3 none (some 3)).2 = chain3) ∧
      (¬ ((none : Ptr) = none ∨ some 3 = none) →
        (InsertBefore chain3 none (some 3)).1 = (true, none))) :=
  Insert_invalid_iff chain3 none (some 3)

/-- C15: `Delete` returns `(false, "invalid node")` exactly when the node is
nil, and then the whole state (`head`, `tail`, every node) is unchanged; for
every node that is not nil it returns `(true, nil)`. -/
theorem Delete_invalid_iff (q : Queue α) (n : Ptr) :
    ((Delete q n).1 = (false, some "invalid node") ↔ n = none) ∧
    (n = none → (Delete q n).2 = q) ∧
    (n ≠ none → (Delete q n).1 = (true, none)) := by
  cases n <;> simp [Delete]

/-- Witness of C15: `Delete(nil)` on the queue `0 ⇄ 1 ⇄ 2`. -/
theorem Delete_invalid_iff_witness :
    ((Delete chain3 none).1 = (false, some "invalid node") ↔ (none : Ptr) = none) ∧
    ((none : Ptr) = none → (Delete chain3 none).2 = chain3) ∧
    ((none : Ptr) ≠ none → (Delete chain3 none).1 = (true, none)) :=
  Delete_invalid_iff chain3 none

/-- C16 (the code departs from it): the calls of `popDeletePop` respect the
contracts and end in a state where `head` is nil and `Empty` returns false. -/
theorem Empty_false_with_nil_head :
    (run (NewQueue zeroHeap 0) [] popDeletePop).map (fun s => (s.1.head, s.1.tail, Empty s.1)) =
      some (none, some 2, false) := by
  decide

/-- C17: on a well-formed queue with members `xs ++ n :: ys`, `Delete(n)`
followed by `LPush(n)` succeeds and leaves a well-formed queue with members
`n :: (xs ++ ys)`, and `V` of every node is unchanged. -/
theorem touch_moves_to_front (q : Queue α) (xs ys : List Nat) (n : Nat)
    (hwf : WellFormed q (xs ++ n :: ys)) :
    ∃ q', LPush (Delete q (some n)).2 (some n) = some q' ∧
      WellFormed q' (n :: (xs ++ ys)) ∧ ∀ b, (q'.heap b).V = (q.heap b).V := by
  obtain ⟨⟨-, -, hnx, hny, -⟩, -⟩ := wf_split hwf
  have hn : n ∉ xs ++ ys := by
    intro hm
    rcases List.mem_append.mp hm with h | h
    · exact hnx h
    · exact hny h
  obtain ⟨q', hpush, hwf', -, -, hV⟩ := LPush_wf _ _ n (Delete_wf q xs ys n hwf) hn
  exact ⟨q', hpush, hwf', fun b => by rw [hV, Delete_V]⟩

/-- Witness of C17 on the queue `0 ⇄ 1 ⇄ 2`, touching node 1. -/
theorem touch_moves_to_front_witness :
    WellFormed chain3 ([0] ++ 1 :: [2]) ∧
    ∃ q', LPush (Delete chain3 (some 1)).2 (some 1) = some q' ∧
      WellFormed q' (1 :: ([0] ++ [2])) ∧ ∀ b, (q'.heap b).V = (chain3.heap b).V :=
  ⟨by decide, touch_moves_to_front chain3 [0] [2] 1 (by decide)⟩

/-- C18 (the code departs from it): after three pushes on the right, `LPop`
returns node 0 with `prev = next = nil`; the following `Delete` of node 1, a
member, sets `next` of the popped node 0 to node 2. -/
theorem Delete_writes_popped_node :
    ((run (NewQueue zeroHeap 0) [] pushThree).bind (fun s => LPop s.1)).map
      (fun r => (r.1, (r.2.heap 0).prev, (r.2.heap 0).next)) = some (some 0, none, none) ∧
    (run (NewQueue zeroHeap 0) [] (pushThree ++ [.LPop])).map
      (fun s => (s.2, respects s.1 s.2 (.Delete (some 1)),
        ((Delete s.1 (some 1)).2.heap 0).prev, ((Delete s.1 (some 1)).2.heap 0).next)) =
      some ([2, 1], true, none, some 2) := by
  decide

/-- C19: on a well-formed queue, a second `Delete(n)` right after `Delete(n)`
of a member returns `(true, nil)` and leaves the whole state (`head`, `tail`,
every node) as it was after the first. -/
theorem Delete_twice (q : Queue α) (xs ys : List Nat) (n : Nat)
    (hwf : WellFormed q (xs ++ n :: ys)) :
    Delete (Delete q (some n)).2 (some n) = ((true, none), (Delete q (some n)).2) := by
  obtain ⟨-, hhd, htl, hprev, hnext⟩ := Delete_links q xs ys n hwf
  obtain ⟨⟨-, -, hnx, hny, -⟩, -⟩ := wf_split hwf
  have hp : ((Delete q (some n)).2.heap n).prev = none := by rw [hprev, if_pos rfl]
  have hx : ((Delete q (some n)).2.heap n).next = none := by rw [hnext, if_pos rfl]
  have hn : n ∉ xs ++ ys := by
    intro hm
    rcases List.mem_append.mp hm with h | h
    · exact hnx h
    · exact hny h
  have hh : ¬ (some n = (Delete q (some n)).2.head) := by
    rw [hhd, ← headOr_append]
    intro he
    exact hn (headOr_mem he.symm)
  have ht : ¬ (some n = (Delete q (some n)).2.tail) := by
    rw [htl, ← lastOr_append]
    intro he
    exact hn (lastOr_none_mem he.symm)
  generalize (Delete q (some n)).2 = s at hp hx hh ht
  have hheap := setLinks_none_self s.heap n hp hx
  cases s with
  | mk head tail pool heap brk =>
    simp only at hp hx hh ht hheap
    simp only [Delete, hp, hx, if_neg hh, if_neg ht, hheap]

/-- Witness of C19 on the queue `0 ⇄ 1 ⇄ 2`, deleting node 1 twice. -/
theorem Delete_twice_witness :
    WellFormed chain3 ([0] ++ 1 :: [2]) ∧
    Delete (Delete chain3 (some 1)).2 (some 1) = ((true, none), (Delete chain3 (some 1)).2) :=
  ⟨by decide, Delete_twice chain3 [0] [2] 1 (by decide)⟩

/-- C20: `LPush`, `RPush`, `LPop` and `RPop` (whenever they return),
`InsertAfter`, `InsertBefore` and `Delete`, with any arguments in any state,
leave `V` of every node unchanged, and so does `Recycle`; `NewQNode` leaves
`V` of every node but the one it returns unchanged. -/
theorem list_operations_keep_V (q : Queue α) (p n : Ptr) (pick : Nat) (v : Option α) (b : Nat) :
    (∀ q', LPush q n = some q' → (q'.heap b).V = (q.heap b).V) ∧
    (∀ q', RPush q n = some q' → (q'.heap b).V = (q.heap b).V) ∧
    (∀ r q', LPop q = some (r, q') → (q'.heap b).V = (q.heap b).V) ∧
    (∀ r q', RPop q = some (r, q') → (q'.heap b).V = (q.heap b).V) ∧
    ((InsertAfter q p n).2.heap b).V = (q.heap b).V ∧
    ((InsertBefore q p n).2.heap b).V = (q.heap b).V ∧
    ((Delete q n).2.heap b).V = (q.heap b).V ∧
    ((Recycle q n).heap b).V = (q.heap b).V ∧
    (b ≠ (NewQNode q pick v).1 → ((NewQNode q pick v).2.heap b).V = (q.heap b).V) := by
  refine ⟨fun q' h => push_V q q' n true h b, fun q' h => push_V q q' n false h b,
    fun r q' h => pop_V q q' r true h b, fun r q' h => pop_V q q' r false h b,
    InsertAfter_V q p n b, InsertBefore_V q p n b, Delete_V q n b, ?_, ?_⟩
  · cases n <;> rfl
  · intro hb
    unfold NewQNode poolGet at hb ⊢
    split at hb <;> simp_all [reset]

/-- Witness of C20 on the queue `0 ⇄ 1 ⇄ 2`, where the pushes of node 3 and the
pops do return, reading `V` of node 1. -/
theorem list_operations_keep_V_witness :
    (LPush chain3 (some 3)).isSome = true ∧ (RPush chain3 (some 3)).isSome = true ∧
    (LPop chain3).isSome = true ∧ (RPop chain3).isSome = true ∧
    ((∀ q', LPush chain3 (some 3) = some q' → (q'.heap 1).V = (chain3.heap 1).V) ∧
    (∀ q', RPush chain3 (some 3) = some q' → (q'.heap 1).V = (chain3.heap 1).V) ∧
    (∀ r q', LPop chain3 = some (r, q') → (q'.heap 1).V = (chain3.heap 1).V) ∧
    (∀ r q', RPop chain3 = some (r, q') → (q'.heap 1).V = (chain3.heap 1).V) ∧
    ((InsertAfter chain3 (some 1) (some 3)).2.heap 1).V = (chain3.heap 1).V ∧
    ((InsertBefore chain3 (some 1) (some 3)).2.heap 1).V = (chain3.heap 1).V ∧
    ((Delete chain3 (some 3)).2.heap 1).V = (chain3.heap 1).V ∧
    ((Recycle chain3 (some 3)).heap 1).V = (chain3.heap 1).V ∧
    (1 ≠ (NewQNode chain3 0 (some 7)).1 →
      ((NewQNode chain3 0 (some 7)).2.heap 1).V = (chain3.heap 1).V)) :=
  ⟨by decide, by decide, by decide, by decide,
    list_operations_keep_V chain3 (some 1) (some 3) 0 (some 7) 1⟩

end ConcurrentCache
